import Mathlib

/-!
Verification of the Docufy ingestion pipeline (`src/backend/watch.py` and
`src/backend/watch_api.py`) against its natural-language specification.

The pipeline is shallowly embedded: filesystem paths are lists of components
(mirroring `pathlib.Path`), the filesystem is a finite map from paths to file
contents plus a list of created directories, and the stateful pieces
(the dedup set `_SEEN_HASHES`, the work queue `_WORK_Q`, the observer registry
`_OBSERVERS`) are explicit state threaded through step functions.  Fallible
Python code (exceptions) is modelled with `Except String`.
-/

deriving instance DecidableEq for Except

namespace Docufy

/-! ### Paths

A filesystem path is modelled as its list of components, the way
`pathlib.Path` decomposes it.  `pathNameOf` is `Path.name` (the final
component), and `splitIdx` implements the index computation underlying
`PurePath.suffix` / `PurePath.stem`: the last `'.'` of the final component
splits the name when it is neither at position 0 nor at the very end
(`0 < i < len(name) - 1` in the CPython source). -/

abbrev FsPath := List String

def pathNameOf (p : FsPath) : String := p.getLastD ""

/-- Index of the last occurrence of `'.'` in the list, if any
(`str.rfind('.')` restricted to a found result). -/
def rfindDot : List Char → Option Nat
  | [] => none
  | c :: cs =>
    match rfindDot cs with
    | some i => some (i + 1)
    | none => if c = '.' then some 0 else none

/-- The split position of a file name into stem and suffix, following
`pathlib.PurePath.suffix`: the last dot qualifies only when
`0 < i < len(name) - 1`; otherwise the suffix is empty (split at the end). -/
def splitIdx (name : String) : Nat :=
  match rfindDot name.data with
  | none => name.data.length
  | some i => if 0 < i ∧ i < name.data.length - 1 then i else name.data.length

/-- Embeds `PurePath.stem`: the file name without its suffix. -/
def pathStem (name : String) : String := ⟨name.data.take (splitIdx name)⟩

/-- Embeds `PurePath.suffix`: the extension of the file name, including the dot. -/
def pathSuffix (name : String) : String := ⟨name.data.drop (splitIdx name)⟩

/-- Embeds `str.lower()` (ASCII case folding, as applied to extensions). -/
def strToLower (s : String) : String := ⟨s.data.map Char.toLower⟩

/-- Embeds `str.startswith(p)`. -/
def strStartsWith (s p : String) : Bool := p.data.isPrefixOf s.data

/-- The allow-list `ALLOWED_EXTS` from `watch.py`. -/
def ALLOWED_EXTS : List String := [".pdf", ".png", ".jpg", ".jpeg", ".tif", ".tiff"]

/-! ### The stability probe `_file_is_stable`

The probe repeatedly polls the file size (`p.stat().st_size`), keeping the
previous reading in `last` and a counter `stable` of consecutive equal
readings; it sleeps `wait_s` between polls and returns `True` once
`stable` reaches `checks`.  We embed one run of the probe over the trace of
outcomes the successive `stat` calls would produce: `Except.ok sz` is a
successful size reading, `Except.error e` a raised `OSError`.  The result is
`none` when the trace is exhausted while the loop would still be polling
(the probe blocks forever on a file that never stops changing),
`some (Except.error e)` when a poll raises, and `some (Except.ok ())` when
the probe returns `True`. -/

structure StableState where
  last : Int
  stable : Nat
deriving DecidableEq

/-- Initial probe state: `last = -1`, `stable = 0`. -/
def stableInit : StableState := ⟨-1, 0⟩

/-- One loop iteration on a successful size reading: equal readings increment
the counter, a different reading resets the counter to zero and records the
new size. -/
def stableStep (s : StableState) (sz : Int) : StableState :=
  if sz = s.last then { last := s.last, stable := s.stable + 1 }
  else { last := sz, stable := 0 }

/-- Default `wait_s` of `_file_is_stable` (1.5 seconds). -/
def stableWaitDefault : ℚ := 3 / 2

/-- Default `checks` of `_file_is_stable`. -/
def stableChecksDefault : Nat := 2

def fileIsStableT (checks : Nat) (s : StableState) :
    List (Except String Int) → Option (Except String Unit)
  | [] => if checks ≤ s.stable then some (Except.ok ()) else none
  | r :: rest =>
    if checks ≤ s.stable then some (Except.ok ())
    else
      match r with
      | Except.error e => some (Except.error e)
      | Except.ok sz => fileIsStableT checks (stableStep s sz) rest

/-! ### Jobs, the watcher state and `_InboxHandler._maybe_enqueue`

`Job` mirrors the dataclass in `watch.py` (with `out_dir` as a path in the
components model; `None`/empty both behave as "unset" because the worker uses
the Python falsiness-based `job.out_dir or default`).  The process-wide state a
watcher mutates is the dedup set `_SEEN_HASHES` and the FIFO `_WORK_Q`. -/

structure Job where
  path : FsPath
  recipe_ref : String
  sha1 : String
  out_dir : Option FsPath := none
deriving DecidableEq

structure WState where
  seen : List String
  q : List Job
deriving DecidableEq

/-- The per-watcher configuration held by `_InboxHandler` (`folder`,
`recipe_ref`, `out_dir`). -/
structure HandlerCfg where
  folder : FsPath
  recipe_ref : String
  out_dir : Option FsPath := none

/-- What one delivered filesystem event looks like to the handler: the
resolved path, whether it is a regular file, the trace of `stat` outcomes the
stability probe would observe, and the outcome of reading the bytes of the file for
hashing (`Except.error` when `open`/`read` raises). -/
structure EventFile where
  path : FsPath
  isFile : Bool
  statTrace : List (Except String Int)
  content : Except String String
deriving DecidableEq

/-- Embeds `_InboxHandler._maybe_enqueue`, with SHA-1 abstracted as the `hash`
collaborator applied to the contents of the file.  `none` means the call never
returns (the stability probe loops forever); `some (Except.error e)` means the
call raises `e` (nothing in `_maybe_enqueue` catches errors from `stat` or
from hashing); `some (Except.ok st')` means the call returns normally leaving
the global state `st'`. -/
def maybeEnqueue (hash : String → String) (cfg : HandlerCfg) (st : WState)
    (ev : EventFile) : Option (Except String WState) :=
  let name := pathNameOf ev.path
  if ev.isFile = false then some (Except.ok st)
  else if ¬ strToLower (pathSuffix name) ∈ ALLOWED_EXTS then some (Except.ok st)
  else if strToLower (pathSuffix name) ∈ [".tmp", ".part"] ∨ strStartsWith name "~$" = true then
    some (Except.ok st)
  else
    match fileIsStableT stableChecksDefault stableInit ev.statTrace with
    | none => none
    | some (Except.error e) => some (Except.error e)
    | some (Except.ok ()) =>
      match ev.content with
      | Except.error e => some (Except.error e)
      | Except.ok c =>
        let digest := hash c
        if digest ∈ st.seen then some (Except.ok st)
        else
          some (Except.ok
            { seen := digest :: st.seen
              q := st.q ++ [{ path := ev.path, recipe_ref := cfg.recipe_ref,
                              sha1 := digest, out_dir := cfg.out_dir }] })

/-- The global state after one handler invocation: unchanged when the handler
raises (the mutations in `_maybe_enqueue` happen only after hashing succeeds)
or blocks. -/
def watchStep (hash : String → String) (cfg : HandlerCfg) (st : WState)
    (ev : EventFile) : WState :=
  match maybeEnqueue hash cfg st ev with
  | some (Except.ok st') => st'
  | _ => st

/-- Delivering a sequence of filesystem events to one watcher. -/
def runEvents (hash : String → String) (cfg : HandlerCfg) (st : WState)
    (evs : List EventFile) : WState :=
  evs.foldl (watchStep hash cfg) st

/-! ### The filesystem

A finite map from paths to file contents (an association list in which the
first binding wins, so `writeText` overwrites by shadowing) together with the
list of directories created so far.  `existsP` is `Path.exists()`: true for a
regular file or a directory.  `replace` is `Path.replace`: it raises when the
source is missing and overwrites an existing destination. -/

structure FS where
  files : List (FsPath × String)
  dirs : List FsPath
deriving DecidableEq

def FS.read (fs : FS) (p : FsPath) : Option String :=
  (fs.files.find? (fun e => decide (e.1 = p))).map (fun e => e.2)

def FS.writeText (fs : FS) (p : FsPath) (c : String) : FS :=
  { fs with files := (p, c) :: fs.files.filter (fun e => decide (¬ e.1 = p)) }

def FS.removeFile (fs : FS) (p : FsPath) : FS :=
  { fs with files := fs.files.filter (fun e => decide (¬ e.1 = p)) }

def FS.mkdirP (fs : FS) (p : FsPath) : FS :=
  if p ∈ fs.dirs then fs else { fs with dirs := p :: fs.dirs }

def FS.existsP (fs : FS) (p : FsPath) : Bool :=
  (fs.read p).isSome || fs.dirs.contains p

def FS.replace (fs : FS) (src dest : FsPath) : Except String FS :=
  match fs.read src with
  | none => Except.error "FileNotFoundError"
  | some c => Except.ok ((fs.removeFile src).writeText dest c)

/-! ### The worker loop

`worker_loop` drains the queue: for each `Job` it calls the external
`process_func`, writes the result to `<out_root>/<stem>.json`, optionally
moves the original into a `Processed` sibling directory (suffixing the stem
with ` (1)`, ` (2)`, … on name collisions), and on any raised error instead
records `str(e)` in `<out_root>/Errors/<name>.err.txt`; `finally`, it marks
the queue item done.  `process_func` returns a `dict` or a pre-serialized
string; `out_dir` is a string or a zero-argument callable. -/

/-- The `dict | str` result of `process_func`. -/
inductive PResult where
  | pstr (s : String)
  | pdict (d : List (String × String))
deriving DecidableEq

/-- Stand-in for `json.dumps(result, ensure_ascii=False, indent=2)`:
a concrete injective rendering of the dictionary (its exact byte format is
irrelevant to every claim). -/
def jsonDumps (d : List (String × String)) : String :=
  "\x7b" ++ String.intercalate ", " (d.map (fun e => e.1 ++ ": " ++ e.2)) ++ "\x7d"

/-- Embeds `payload = result if isinstance(result, str) else json.dumps(result, ...)`. -/
def payloadOf : PResult → String
  | PResult.pstr s => s
  | PResult.pdict d => jsonDumps d

/-- The `out_dir` parameter of the worker: a fixed directory or a callable getter
(`out_dir() if callable(out_dir) else out_dir`). -/
def OutDirCfg := Sum FsPath (Unit → FsPath)

def resolveOutCfg : OutDirCfg → FsPath
  | Sum.inl p => p
  | Sum.inr f => f ()

/-- Embeds `job.out_dir or (out_dir() if callable(out_dir) else out_dir)`:
the Python `or` falls through on `None` and on the falsy empty path. -/
def effOut (o : Option FsPath) (cfg : OutDirCfg) : FsPath :=
  match o with
  | some p => if p = [] then resolveOutCfg cfg else p
  | none => resolveOutCfg cfg

/-- The collision scan `while dest.exists(): dest = processed_dir / f"..."`.
Embedded with explicit fuel; `destScan` supplies fuel exceeding the number of
filesystem entries, which is provably enough for the scan to reach a free
name (the candidate names are pairwise distinct). -/
def destLoop (fs : FS) (pdir : FsPath) (stem sfx : String) :
    FsPath → Nat → Nat → FsPath
  | dest, _, 0 => dest
  | dest, i, fuel + 1 =>
    if fs.existsP dest then
      destLoop fs pdir stem sfx
        (pdir ++ [stem ++ " (" ++ Nat.repr i ++ ")" ++ sfx]) (i + 1) fuel
    else dest

def destScan (fs : FS) (pdir : FsPath) (stem sfx name : String) : FsPath :=
  destLoop fs pdir stem sfx (pdir ++ [name]) 1 (fs.files.length + fs.dirs.length + 1)

/-- The `try:` block of one `worker_loop` iteration: returns the filesystem
as left by the block together with the raised error, if any (the `except`
clause receives control with all side effects of the partial block applied). -/
def workerTry (fs : FS) (j : Job) (outCfg : OutDirCfg)
    (process : FsPath → String → Except String PResult) (moveOriginal : Bool) :
    FS × Option String :=
  match process j.path j.recipe_ref with
  | Except.error e => (fs, some e)
  | Except.ok result =>
    let name := pathNameOf j.path
    let outRoot := effOut j.out_dir outCfg
    let fs1 := (fs.mkdirP outRoot).writeText (outRoot ++ [pathStem name ++ ".json"])
      (payloadOf result)
    if moveOriginal then
      let pdir := j.path.dropLast ++ ["Processed"]
      let fs2 := fs1.mkdirP pdir
      let dest := destScan fs2 pdir (pathStem name) (pathSuffix name) name
      match fs2.replace j.path dest with
      | Except.ok fs3 => (fs3, none)
      | Except.error e => (fs2, some e)
    else (fs1, none)

/-- One dequeued job handled end to end: the `try` block, and on a raised
error the `except` clause, which writes `str(e)` to
`<out_root>/Errors/<src.name>.err.txt` (creating `Errors` if absent).
Total: no error escapes. -/
def handleJob (fs : FS) (j : Job) (outCfg : OutDirCfg)
    (process : FsPath → String → Except String PResult) (moveOriginal : Bool) : FS :=
  match workerTry fs j outCfg process moveOriginal with
  | (fs1, none) => fs1
  | (fs1, some e) =>
    let outRoot := effOut j.out_dir outCfg
    let errDir := outRoot ++ ["Errors"]
    (fs1.mkdirP errDir).writeText (errDir ++ [pathNameOf j.path ++ ".err.txt"]) e

/-- The work queue: pending jobs in FIFO order plus the count of items put
but not yet `task_done`-ed (the `queue.Queue` unfinished-task counter). -/
structure WorkQ where
  jobs : List Job
  unfinished : Nat
deriving DecidableEq

/-- The state the worker loop sees: the shared queue and the filesystem. -/
structure SysW where
  q : WorkQ
  fs : FS
deriving DecidableEq

/-- One iteration of the `while not _STOP.is_set()` body: on `queue.Empty`
(empty queue) the timeout elapses and the loop just continues; otherwise the
job is dequeued, handled (success or failure), and marked done. -/
def workerIter (outCfg : OutDirCfg)
    (process : FsPath → String → Except String PResult) (moveOriginal : Bool)
    (st : SysW) : SysW :=
  match st.q.jobs with
  | [] => st
  | j :: rest =>
    { q := { jobs := rest, unfinished := st.q.unfinished - 1 }
      fs := handleJob st.fs j outCfg process moveOriginal }

/-- Runs `n` iterations of the worker loop body. -/
def workerRun (outCfg : OutDirCfg)
    (process : FsPath → String → Except String PResult) (moveOriginal : Bool) :
    Nat → SysW → SysW
  | 0, st => st
  | n + 1, st => workerRun outCfg process moveOriginal n (workerIter outCfg process moveOriginal st)

/-! ### Whole-system runs (watchers + worker) for the dedup-set invariant -/

structure Sys where
  w : WState
  fs : FS

/-- An interleaving step: either a filesystem event is delivered to some
watcher, or the worker performs one loop iteration. -/
inductive SysCmd where
  | deliver (cfg : HandlerCfg) (ev : EventFile)
  | work

def sysStep (hash : String → String) (outCfg : OutDirCfg)
    (process : FsPath → String → Except String PResult) (moveOriginal : Bool)
    (st : Sys) : SysCmd → Sys
  | SysCmd.deliver cfg ev => { st with w := watchStep hash cfg st.w ev }
  | SysCmd.work =>
    match st.w.q with
    | [] => st
    | j :: rest =>
      { w := { seen := st.w.seen, q := rest }
        fs := handleJob st.fs j outCfg process moveOriginal }

def sysRun (hash : String → String) (outCfg : OutDirCfg)
    (process : FsPath → String → Except String PResult) (moveOriginal : Bool)
    (st : Sys) (cmds : List SysCmd) : Sys :=
  cmds.foldl (sysStep hash outCfg process moveOriginal) st

/-! ### The watch registry (`watch_api.start` / `watch_api.stop` over
`_OBSERVERS`)

`start` computes `key = folder + "|" + recipe_ref`; if the key is already
active it is a no-op returning `"already_watching"`; otherwise `start_watch`
creates the folder, constructs and starts an observer, and records it.
`stop` on an unknown key returns `"not_active"`; otherwise `stop_watch` pops
and joins the observer.  Observers are modelled by identifiers drawn from a
counter. -/

structure Registry where
  observers : List (String × Nat)
  nextObs : Nat
  dirs : List String
deriving DecidableEq

/-- Embeds `active_watches().keys()` (also the `list()` of the spec). -/
def activeKeys (st : Registry) : List String := st.observers.map (fun e => e.1)

/-- Embeds `watch_api.start` followed by `watch.start_watch`, at the level of the
already-resolved `recipe_ref`.  Returns the new registry, the `status`
string, and the `key`. -/
def startWatch (st : Registry) (folder recipe_ref : String)
    (_out_dir : Option FsPath) : Registry × String × String :=
  let key := folder ++ "|" ++ recipe_ref
  if key ∈ activeKeys st then (st, "already_watching", key)
  else
    ({ observers := (key, st.nextObs) :: st.observers
       nextObs := st.nextObs + 1
       dirs := folder :: st.dirs }, "watching", key)

/-- Embeds `watch_api.stop` followed by `watch.stop_watch`. -/
def stopWatch (st : Registry) (key : String) : Registry × String :=
  if key ∈ activeKeys st then
    ({ st with observers := st.observers.filter (fun e => decide (¬ e.1 = key)) },
      "stopped")
  else (st, "not_active")

/-! ### Decimal numerals

`Nat.repr` (the `f"{i}"` rendering in the collision scan) is injective; this
is what makes the candidate names `stem (1)`, `stem (2)`, … pairwise
distinct.  We recover the number from its digit string. -/

/-- Inverse of `Nat.digitChar` on decimal digits. -/
def digitVal (c : Char) : Nat :=
  if c = '0' then 0 else if c = '1' then 1 else if c = '2' then 2 else
  if c = '3' then 3 else if c = '4' then 4 else if c = '5' then 5 else
  if c = '6' then 6 else if c = '7' then 7 else if c = '8' then 8 else
  if c = '9' then 9 else 10

/-- Value of a decimal digit string, most significant first, starting from
accumulator `a`. -/
def digsValAux (a : Nat) (l : List Char) : Nat :=
  l.foldl (fun x c => x * 10 + digitVal c) a

/-! ## Helper lemmas -/

/-- A file name is its stem followed by its suffix. -/
theorem pathStem_append_pathSuffix (name : String) :
    pathStem name ++ pathSuffix name = name := by
  apply String.ext
  simp [pathStem, pathSuffix, List.take_append_drop]

theorem pathNameOf_concat (l : FsPath) (x : String) : pathNameOf (l ++ [x]) = x := by
  simp [pathNameOf, List.getLastD_eq_getLast?, List.getLast?_concat]

/-- Paths with different final components are different. -/
theorem concat_ne_of_last_ne {l₁ l₂ : FsPath} {a b : String} (h : a ≠ b) :
    l₁ ++ [a] ≠ l₂ ++ [b] := by
  intro he
  have := congrArg List.getLast? he
  rw [List.getLast?_concat, List.getLast?_concat] at this
  exact h (Option.some.inj this)

theorem append_err_ne_append_json (a b : String) : a ++ ".err.txt" ≠ b ++ ".json" := by
  intro he
  have hd := congrArg String.data he
  simp only [String.data_append] at hd
  have := congrArg List.getLast? hd
  simp [List.getLast?_append] at this

theorem ne_self_append_err (n : String) : n ≠ n ++ ".err.txt" := by
  intro he
  have h := congrArg String.length he
  rw [String.length_append] at h
  have h8 : (".err.txt" : String).length = 8 := by decide
  omega

/-- The string appended by the collision scan never begins like `".json"`. -/
theorem paren_append_ne_json (x sfx : String) :
    " (" ++ x ++ ")" ++ sfx ≠ ".json" := by
  intro he
  have hd := congrArg String.data he
  simp [String.data_append] at hd

/-! ## The stability probe (C6) -/

/-- Over a trace of successful size readings starting from state `s`, the
probe returns `True` exactly when the consecutive-equal-readings counter
reaches `checks` at some prefix of the trace. -/
theorem fileIsStableT_ok_iff (checks : Nat) (sizes : List Int) (s : StableState) :
    fileIsStableT checks s (sizes.map Except.ok) = some (Except.ok ()) ↔
      ∃ k, k ≤ sizes.length ∧ checks ≤ ((sizes.take k).foldl stableStep s).stable := by
  induction sizes generalizing s with
  | nil =>
    constructor
    · intro h
      refine ⟨0, Nat.le_refl 0, ?_⟩
      by_cases hs : checks ≤ s.stable
      · simpa using hs
      · simp [fileIsStableT, hs] at h
    · rintro ⟨k, hk, hle⟩
      have hk0 : k = 0 := Nat.le_zero.mp hk
      subst hk0
      simp only [List.take_nil, List.foldl_nil] at hle
      simp [fileIsStableT, hle]
  | cons sz rest ih =>
    by_cases hs : checks ≤ s.stable
    · have hL : fileIsStableT checks s ((sz :: rest).map Except.ok) = some (Except.ok ()) := by
        simp [fileIsStableT, hs]
      rw [hL]
      exact iff_of_true rfl ⟨0, Nat.zero_le _, by simpa using hs⟩
    · simp only [List.map_cons, fileIsStableT, if_neg hs, ih (stableStep s sz)]
      constructor
      · rintro ⟨k, hk, hle⟩
        refine ⟨k + 1, by simpa using Nat.succ_le_succ hk, ?_⟩
        simpa using hle
      · rintro ⟨k, hk, hle⟩
        match k with
        | 0 =>
          simp only [List.take_zero, List.foldl_nil] at hle
          exact absurd hle hs
        | k' + 1 =>
          refine ⟨k', by simpa using Nat.le_of_succ_le_succ hk, ?_⟩
          simpa using hle

/-! ## Watcher structure lemmas -/

/-- Every handler call either leaves the global state unchanged, or appends
exactly one `Job` carrying a fingerprint that was not yet in the dedup set
and inserts that fingerprint. -/
theorem watchStep_characterize (hash : String → String) (cfg : HandlerCfg)
    (st : WState) (ev : EventFile) :
    watchStep hash cfg st ev = st ∨
    ∃ c, ev.content = Except.ok c ∧ hash c ∉ st.seen ∧
      watchStep hash cfg st ev =
        { seen := hash c :: st.seen
          q := st.q ++ [{ path := ev.path, recipe_ref := cfg.recipe_ref,
                          sha1 := hash c, out_dir := cfg.out_dir }] } := by
  unfold watchStep maybeEnqueue
  by_cases h1 : ev.isFile = false
  · simp [h1]
  rw [if_neg h1]
  by_cases h2 : strToLower (pathSuffix (pathNameOf ev.path)) ∈ ALLOWED_EXTS
  · rw [if_neg (not_not_intro h2)]
    by_cases h3 : strToLower (pathSuffix (pathNameOf ev.path)) ∈ [".tmp", ".part"] ∨
        strStartsWith (pathNameOf ev.path) "~$" = true
    · rw [if_pos h3]
      left
      rfl
    · rw [if_neg h3]
      cases hst : fileIsStableT stableChecksDefault stableInit ev.statTrace with
      | none => simp [hst]
      | some r =>
        cases r with
        | error e => simp [hst]
        | ok u =>
          cases u
          cases hc : ev.content with
          | error e => simp [hst, hc]
          | ok c =>
            by_cases hd : hash c ∈ st.seen
            · simp [hst, hc, hd]
            · right
              refine ⟨c, rfl, hd, ?_⟩
              simp [hst, hc, hd]
  · rw [if_pos h2]
    left
    rfl

/-- The dedup set only grows. -/
theorem seen_subset_watchStep (hash : String → String) (cfg : HandlerCfg)
    (st : WState) (ev : EventFile) : st.seen ⊆ (watchStep hash cfg st ev).seen := by
  rcases watchStep_characterize hash cfg st ev with h | ⟨c, _, _, h⟩ <;> rw [h]
  · exact fun a ha => ha
  · exact fun a ha => List.mem_cons_of_mem _ ha

/-- Any job present after a handler call was already queued, or carries a
fingerprint that was not yet in the dedup set. -/
theorem watchStep_job_origin (hash : String → String) (cfg : HandlerCfg)
    (st : WState) (ev : EventFile) (j : Job) (hj : j ∈ (watchStep hash cfg st ev).q) :
    j ∈ st.q ∨ j.sha1 ∉ st.seen := by
  rcases watchStep_characterize hash cfg st ev with h | ⟨c, _, hns, h⟩ <;> rw [h] at hj
  · exact Or.inl hj
  · rcases List.mem_append.mp hj with hj | hj
    · exact Or.inl hj
    · right
      rcases List.mem_singleton.mp hj with rfl
      exact hns

/-- An event rejected by any of the three filter guards is ignored: the
handler returns normally with the state untouched. -/
theorem maybeEnqueue_guard_skip (hash : String → String) (cfg : HandlerCfg)
    (st : WState) (ev : EventFile)
    (h : ev.isFile = false ∨ ¬ strToLower (pathSuffix (pathNameOf ev.path)) ∈ ALLOWED_EXTS ∨
      (strToLower (pathSuffix (pathNameOf ev.path)) ∈ [".tmp", ".part"] ∨
        strStartsWith (pathNameOf ev.path) "~$" = true)) :
    maybeEnqueue hash cfg st ev = some (Except.ok st) := by
  unfold maybeEnqueue
  by_cases h1 : ev.isFile = false
  · rw [if_pos h1]
  rw [if_neg h1]
  by_cases h2 : strToLower (pathSuffix (pathNameOf ev.path)) ∈ ALLOWED_EXTS
  · rw [if_neg (not_not_intro h2)]
    rcases h with h | h | h
    · exact absurd h h1
    · exact absurd h2 h
    · rw [if_pos h]
  · rw [if_pos h2]

/-- If a handler call enqueued a new job, the event passed every filter
guard: a regular file, an allow-listed extension, and no `~$` prefix. -/
theorem watchStep_enqueue_guards (hash : String → String) (cfg : HandlerCfg)
    (st : WState) (ev : EventFile) (j : Job)
    (hj : j ∈ (watchStep hash cfg st ev).q) (hnj : j ∉ st.q) :
    ev.isFile = true ∧ strToLower (pathSuffix (pathNameOf ev.path)) ∈ ALLOWED_EXTS ∧
      strStartsWith (pathNameOf ev.path) "~$" = false := by
  have hstep : ¬ watchStep hash cfg st ev = st := by
    intro he
    rw [he] at hj
    exact hnj hj
  have hskip : ∀ hyp, maybeEnqueue hash cfg st ev = some (Except.ok st) → hyp := by
    intro hyp hsk
    exact absurd (by unfold watchStep; rw [hsk]) hstep
  refine ⟨?_, ?_, ?_⟩
  · cases hf : ev.isFile
    · exact hskip _ (maybeEnqueue_guard_skip hash cfg st ev (Or.inl hf))
    · rfl
  · by_cases h2 : strToLower (pathSuffix (pathNameOf ev.path)) ∈ ALLOWED_EXTS
    · exact h2
    · exact hskip _ (maybeEnqueue_guard_skip hash cfg st ev (Or.inr (Or.inl h2)))
  · cases hsw : strStartsWith (pathNameOf ev.path) "~$"
    · rfl
    · exact hskip _ (maybeEnqueue_guard_skip hash cfg st ev (Or.inr (Or.inr (Or.inr hsw))))

/-- Re-delivery of an event whose content fingerprint is already in the dedup
set changes nothing. -/
theorem watchStep_dup (hash : String → String) (cfg : HandlerCfg) (st : WState)
    (ev : EventFile) (c : String) (hc : ev.content = Except.ok c)
    (hd : hash c ∈ st.seen) : watchStep hash cfg st ev = st := by
  rcases watchStep_characterize hash cfg st ev with h | ⟨c', hc', hns, _⟩
  · exact h
  · rw [hc] at hc'
    cases Except.ok.inj hc'
    exact absurd hd hns

/-- Along any event sequence, a fingerprint already in the dedup set stays
there, and no job carrying it is ever added to the queue. -/
theorem runEvents_no_new_seen_job (hash : String → String) (cfg : HandlerCfg)
    (d : String) (evs : List EventFile) (st : WState) (hd : d ∈ st.seen) :
    d ∈ (runEvents hash cfg st evs).seen ∧
      ∀ j, j ∈ (runEvents hash cfg st evs).q → j.sha1 = d → j ∈ st.q := by
  induction evs generalizing st with
  | nil => exact ⟨hd, fun j hj _ => hj⟩
  | cons ev rest ih =>
    have hd' : d ∈ (watchStep hash cfg st ev).seen := seen_subset_watchStep _ _ _ _ hd
    obtain ⟨h1, h2⟩ := ih (watchStep hash cfg st ev) hd'
    refine ⟨h1, fun j hj hsha => ?_⟩
    have hj' := h2 j hj hsha
    rcases watchStep_job_origin hash cfg st ev j hj' with h | h
    · exact h
    · rw [hsha] at h
      exact absurd hd h

/-! ## Claim theorems: the watcher -/

/-- C1: once a content fingerprint is in the process-wide dedup set,
re-delivering an event whose file hashes to it is a no-op (zero additional
Jobs, dedup set unchanged), and along any sequence of later events no job
carrying that fingerprint is ever enqueued. -/
theorem C1_dedup_idempotent (hash : String → String) (cfg : HandlerCfg)
    (st : WState) (d : String) (hd : d ∈ st.seen) :
    (∀ ev c, ev.content = Except.ok c → hash c = d → watchStep hash cfg st ev = st) ∧
    (∀ evs j, j ∈ (runEvents hash cfg st evs).q → j.sha1 = d → j ∈ st.q) := by
  constructor
  · intro ev c hc hh
    exact watchStep_dup hash cfg st ev c hc (hh ▸ hd)
  · intro evs j hj hsha
    exact (runEvents_no_new_seen_job hash cfg d evs st hd).2 j hj hsha

theorem C1_dedup_idempotent_witness :
    watchStep id ⟨["in"], "R", none⟩ ⟨["X"], []⟩
        ⟨["in", "b.pdf"], true, [Except.ok 5, Except.ok 5, Except.ok 5], Except.ok "X"⟩ =
      ⟨["X"], []⟩ ∧
    ∀ j, j ∈ (runEvents id ⟨["in"], "R", none⟩ ⟨["X"], []⟩
        [⟨["in", "b.pdf"], true, [Except.ok 5, Except.ok 5, Except.ok 5], Except.ok "X"⟩,
         ⟨["in", "c.pdf"], true, [Except.ok 7, Except.ok 7, Except.ok 7], Except.ok "X"⟩]).q →
      j.sha1 = "X" → j ∈ ([] : List Job) := by
  have h := C1_dedup_idempotent id ⟨["in"], "R", none⟩ ⟨["X"], []⟩ "X" (by decide)
  exact ⟨h.1 _ "X" rfl rfl, fun j hj hs => h.2 _ j hj hs⟩

/-- C6: the defaults of the stability probe are `wait_s = 1.5` and `checks = 2`,
and over any trace of observed sizes it returns `True` exactly when the
counter maintained by `stableStep` — incremented on a reading equal to the
previous one, reset to zero otherwise — reaches `checks` within the trace. -/
theorem C6_stability_probe (sizes : List Int) :
    (stableWaitDefault = 3 / 2 ∧ stableChecksDefault = 2) ∧
    (fileIsStableT stableChecksDefault stableInit (sizes.map Except.ok) =
        some (Except.ok ()) ↔
      ∃ k, k ≤ sizes.length ∧
        stableChecksDefault ≤ ((sizes.take k).foldl stableStep stableInit).stable) :=
  ⟨⟨rfl, rfl⟩, fileIsStableT_ok_iff stableChecksDefault sizes stableInit⟩

/-- C7: a job is enqueued only for a regular file whose extension
(case-insensitively) is on the allow-list and whose name has no `~$` prefix;
an event with a non-allow-listed extension, a `.tmp`/`.part` suffix, or a
`~$` name prefix is ignored and produces no job. -/
theorem C7_extension_filter (hash : String → String) (cfg : HandlerCfg)
    (st : WState) (ev : EventFile) :
    (∀ j, j ∈ (watchStep hash cfg st ev).q → j ∉ st.q →
      ev.isFile = true ∧ strToLower (pathSuffix (pathNameOf ev.path)) ∈ ALLOWED_EXTS ∧
        strStartsWith (pathNameOf ev.path) "~$" = false) ∧
    (¬ strToLower (pathSuffix (pathNameOf ev.path)) ∈ ALLOWED_EXTS ∨
        strToLower (pathSuffix (pathNameOf ev.path)) ∈ [".tmp", ".part"] ∨
        strStartsWith (pathNameOf ev.path) "~$" = true →
      maybeEnqueue hash cfg st ev = some (Except.ok st)) := by
  constructor
  · exact fun j hj hnj => watchStep_enqueue_guards hash cfg st ev j hj hnj
  · intro h
    rcases h with h | h | h
    · exact maybeEnqueue_guard_skip hash cfg st ev (Or.inr (Or.inl h))
    · exact maybeEnqueue_guard_skip hash cfg st ev (Or.inr (Or.inr (Or.inl h)))
    · exact maybeEnqueue_guard_skip hash cfg st ev (Or.inr (Or.inr (Or.inr h)))

theorem C7_extension_filter_witness :
    ((⟨["in", "a.pdf"], true, [Except.ok 5, Except.ok 5, Except.ok 5],
        Except.ok "X"⟩ : EventFile).isFile = true ∧
      strToLower (pathSuffix (pathNameOf [ "in", "a.pdf"])) ∈ ALLOWED_EXTS ∧
      strStartsWith (pathNameOf ["in", "a.pdf"]) "~$" = false) ∧
    maybeEnqueue id ⟨["in"], "R", none⟩ ⟨[], []⟩
        ⟨["in", "notes.txt"], true, [Except.ok 5, Except.ok 5, Except.ok 5], Except.ok "Y"⟩ =
      some (Except.ok ⟨[], []⟩) := by
  constructor
  · exact (C7_extension_filter id ⟨["in"], "R", none⟩ ⟨[], []⟩
      ⟨["in", "a.pdf"], true, [Except.ok 5, Except.ok 5, Except.ok 5], Except.ok "X"⟩).1
      ⟨["in", "a.pdf"], "R", "X", none⟩ (by decide) (by decide)
  · exact (C7_extension_filter id ⟨["in"], "R", none⟩ ⟨[], []⟩
      ⟨["in", "notes.txt"], true, [Except.ok 5, Except.ok 5, Except.ok 5], Except.ok "Y"⟩).2
      (Or.inl (by decide))

/-- C9 as stated is false: a `stat` failure during the stability probe is not
"treated as skip" by the watcher — `_maybe_enqueue` contains no error
handling, so the handler call raises instead of returning normally.  At this
concrete event the call propagates the `stat` error. -/
theorem C9_counterexample :
    maybeEnqueue id ⟨["in"], "R", none⟩ ⟨[], []⟩
        ⟨["in", "a.pdf"], true, [Except.ok 5, Except.error "FileNotFoundError"],
          Except.ok "X"⟩ =
      some (Except.error "FileNotFoundError") ∧
    ¬ ∃ st', maybeEnqueue id ⟨["in"], "R", none⟩ ⟨[], []⟩
        ⟨["in", "a.pdf"], true, [Except.ok 5, Except.error "FileNotFoundError"],
          Except.ok "X"⟩ =
      some (Except.ok st') := by
  refine ⟨by decide, ?_⟩
  rintro ⟨st', h⟩
  rw [(by decide : maybeEnqueue id ⟨["in"], "R", none⟩ ⟨[], []⟩
      ⟨["in", "a.pdf"], true, [Except.ok 5, Except.error "FileNotFoundError"],
        Except.ok "X"⟩ =
    some (Except.error "FileNotFoundError"))] at h
  simp at h

/-- C9 amended: when `stat` or hashing raises on a candidate file, no job is
enqueued and the dedup set is unchanged (and the watcher writes no artifact —
it performs no filesystem writes at all), but the error is not caught by the
watcher: `_maybe_enqueue` propagates it to its caller, the OS-notification
framework, so the repository code does not by itself keep the notification
thread alive. -/
theorem C9_detection_errors (hash : String → String) (cfg : HandlerCfg)
    (st : WState) (ev : EventFile) :
    (∀ e, maybeEnqueue hash cfg st ev = some (Except.error e) →
      watchStep hash cfg st ev = st) ∧
    (ev.isFile = true → strToLower (pathSuffix (pathNameOf ev.path)) ∈ ALLOWED_EXTS →
      ¬ (strToLower (pathSuffix (pathNameOf ev.path)) ∈ [".tmp", ".part"] ∨
          strStartsWith (pathNameOf ev.path) "~$" = true) →
      ∀ e, (fileIsStableT stableChecksDefault stableInit ev.statTrace =
              some (Except.error e) ∨
            (fileIsStableT stableChecksDefault stableInit ev.statTrace =
                some (Except.ok ()) ∧ ev.content = Except.error e)) →
      maybeEnqueue hash cfg st ev = some (Except.error e)) := by
  constructor
  · intro e he
    unfold watchStep
    rw [he]
  · intro h1 h2 h3 e he
    unfold maybeEnqueue
    rw [if_neg (by simp [h1] : ¬ ev.isFile = false), if_neg (not_not_intro h2), if_neg h3]
    rcases he with he | ⟨he, hc⟩
    · rw [he]
    · rw [he, hc]

theorem C9_detection_errors_witness :
    watchStep id ⟨["in"], "R", none⟩ ⟨[], []⟩
        ⟨["in", "a.pdf"], true, [Except.ok 5, Except.error "FileNotFoundError"],
          Except.ok "X"⟩ =
      ⟨[], []⟩ ∧
    maybeEnqueue id ⟨["in"], "R", none⟩ ⟨[], []⟩
        ⟨["in", "b.pdf"], true, [Except.ok 5, Except.ok 5, Except.ok 5],
          Except.error "PermissionError"⟩ =
      some (Except.error "PermissionError") := by
  constructor
  · exact (C9_detection_errors id ⟨["in"], "R", none⟩ ⟨[], []⟩
      ⟨["in", "a.pdf"], true, [Except.ok 5, Except.error "FileNotFoundError"],
        Except.ok "X"⟩).1 "FileNotFoundError" (by decide)
  · exact (C9_detection_errors id ⟨["in"], "R", none⟩ ⟨[], []⟩
      ⟨["in", "b.pdf"], true, [Except.ok 5, Except.ok 5, Except.ok 5],
        Except.error "PermissionError"⟩).2 rfl (by decide) (by decide) "PermissionError"
      (Or.inr ⟨by decide, rfl⟩)

/-! ## Filesystem lemmas -/

theorem find?_filter_ne (l : List (FsPath × String)) (p q : FsPath) (h : q ≠ p) :
    (l.filter (fun e => decide (¬ e.1 = p))).find? (fun e => decide (e.1 = q)) =
      l.find? (fun e => decide (e.1 = q)) := by
  induction l with
  | nil => rfl
  | cons a l ih =>
    by_cases hp : a.1 = p
    · have hq : ¬ a.1 = q := fun hh => h (by rw [← hh, hp])
      rw [List.filter_cons, if_neg (by simp [hp]), ih,
        List.find?_cons_of_neg _ (by simp [hq])]
    · by_cases hq : a.1 = q
      · rw [List.filter_cons, if_pos (by simp [hp]),
          List.find?_cons_of_pos _ (by simp [hq]), List.find?_cons_of_pos _ (by simp [hq])]
      · rw [List.filter_cons, if_pos (by simp [hp]),
          List.find?_cons_of_neg _ (by simp [hq]), ih,
          List.find?_cons_of_neg _ (by simp [hq])]

theorem find?_filter_self (l : List (FsPath × String)) (p : FsPath) :
    (l.filter (fun e => decide (¬ e.1 = p))).find? (fun e => decide (e.1 = p)) = none := by
  induction l with
  | nil => rfl
  | cons a l ih =>
    by_cases hp : a.1 = p
    · rw [List.filter_cons, if_neg (by simp [hp]), ih]
    · rw [List.filter_cons, if_pos (by simp [hp]),
        List.find?_cons_of_neg _ (by simp [hp]), ih]

theorem FS.read_writeText_self (fs : FS) (p : FsPath) (c : String) :
    (fs.writeText p c).read p = some c := by
  unfold FS.writeText FS.read
  rw [List.find?_cons_of_pos _ (by simp)]
  rfl

theorem FS.read_writeText_ne (fs : FS) (p q : FsPath) (c : String) (h : q ≠ p) :
    (fs.writeText p c).read q = fs.read q := by
  unfold FS.writeText FS.read
  rw [List.find?_cons_of_neg _ (by simp [Ne.symm h]), find?_filter_ne fs.files p q h]

theorem FS.read_removeFile_self (fs : FS) (p : FsPath) :
    (fs.removeFile p).read p = none := by
  unfold FS.removeFile FS.read
  rw [find?_filter_self fs.files p]
  rfl

theorem FS.read_removeFile_ne (fs : FS) (p q : FsPath) (h : q ≠ p) :
    (fs.removeFile p).read q = fs.read q := by
  unfold FS.removeFile FS.read
  rw [find?_filter_ne fs.files p q h]

theorem FS.read_mkdirP (fs : FS) (d q : FsPath) : (fs.mkdirP d).read q = fs.read q := by
  unfold FS.mkdirP
  split <;> rfl

theorem FS.dirs_writeText (fs : FS) (p : FsPath) (c : String) :
    (fs.writeText p c).dirs = fs.dirs := rfl

theorem FS.mem_dirs_mkdirP (fs : FS) (d : FsPath) : d ∈ (fs.mkdirP d).dirs := by
  unfold FS.mkdirP
  split
  · assumption
  · exact List.mem_cons_self _ _

/-- A source path is never its own error-artifact path. -/
theorem path_ne_errPath (p : FsPath) (outR : FsPath) :
    p ≠ (outR ++ ["Errors"]) ++ [pathNameOf p ++ ".err.txt"] := by
  intro he
  have hn := congrArg pathNameOf he
  rw [pathNameOf_concat] at hn
  exact ne_self_append_err (pathNameOf p) hn

/-! ## Claim theorems: worker error handling (C2) -/

/-- C2: when the processing callback raises `e`, the worker writes `str(e)`
to `<effective out_dir>/Errors/<source name>.err.txt` (creating `Errors` if
absent), leaves the source file untouched at its original path, changes no
other path, and in particular neither creates nor modifies any `.json`
artifact named after the stem of the source. -/
theorem C2_error_artifacts (fs : FS) (j : Job) (outCfg : OutDirCfg)
    (process : FsPath → String → Except String PResult) (move : Bool) (e : String)
    (hp : process j.path j.recipe_ref = Except.error e) :
    (handleJob fs j outCfg process move).read
        ((effOut j.out_dir outCfg ++ ["Errors"]) ++ [pathNameOf j.path ++ ".err.txt"]) =
      some e ∧
    effOut j.out_dir outCfg ++ ["Errors"] ∈ (handleJob fs j outCfg process move).dirs ∧
    (handleJob fs j outCfg process move).read j.path = fs.read j.path ∧
    (∀ p, p ≠ (effOut j.out_dir outCfg ++ ["Errors"]) ++ [pathNameOf j.path ++ ".err.txt"] →
      (handleJob fs j outCfg process move).read p = fs.read p) ∧
    (∀ dir : FsPath,
      (handleJob fs j outCfg process move).read
          (dir ++ [pathStem (pathNameOf j.path) ++ ".json"]) =
        fs.read (dir ++ [pathStem (pathNameOf j.path) ++ ".json"])) := by
  have hh : handleJob fs j outCfg process move =
      ((fs.mkdirP (effOut j.out_dir outCfg ++ ["Errors"])).writeText
        ((effOut j.out_dir outCfg ++ ["Errors"]) ++ [pathNameOf j.path ++ ".err.txt"]) e) := by
    unfold handleJob workerTry
    rw [hp]
  rw [hh]
  refine ⟨FS.read_writeText_self _ _ _, ?_, ?_, ?_, ?_⟩
  · rw [FS.dirs_writeText]
    exact FS.mem_dirs_mkdirP _ _
  · rw [FS.read_writeText_ne _ _ _ _ (path_ne_errPath j.path _), FS.read_mkdirP]
  · intro p hp'
    rw [FS.read_writeText_ne _ _ _ _ hp', FS.read_mkdirP]
  · intro dir
    rw [FS.read_writeText_ne, FS.read_mkdirP]
    exact concat_ne_of_last_ne (append_err_ne_append_json (pathNameOf j.path)
      (pathStem (pathNameOf j.path))).symm

theorem C2_error_artifacts_witness :
    (handleJob ⟨[(["in", "report.pdf"], "C")], []⟩ ⟨["in", "report.pdf"], "R", "h", none⟩
        (Sum.inl ["out"]) (fun _ _ => Except.error "boom") true).read
        ((["out"] ++ ["Errors"]) ++ ["report.pdf" ++ ".err.txt"]) = some "boom" ∧
    (handleJob ⟨[(["in", "report.pdf"], "C")], []⟩ ⟨["in", "report.pdf"], "R", "h", none⟩
        (Sum.inl ["out"]) (fun _ _ => Except.error "boom") true).read ["in", "report.pdf"] =
      some "C" := by
  have h := C2_error_artifacts ⟨[(["in", "report.pdf"], "C")], []⟩
    ⟨["in", "report.pdf"], "R", "h", none⟩ (Sum.inl ["out"])
    (fun _ _ => Except.error "boom") true "boom" rfl
  exact ⟨h.1, by rw [h.2.2.1]; decide⟩

/-! ## Claim theorems: worker-loop robustness (C4) -/

theorem workerRun_drain (outCfg : OutDirCfg)
    (process : FsPath → String → Except String PResult) (move : Bool) :
    ∀ (n : Nat) (st : SysW), st.q.jobs.length ≤ n →
      (workerRun outCfg process move n st).q.jobs = [] := by
  intro n
  induction n with
  | zero =>
    intro st h
    have : st.q.jobs = [] := List.length_eq_zero.mp (Nat.le_zero.mp h)
    simpa [workerRun] using this
  | succ n ih =>
    intro st h
    rw [workerRun]
    cases hq : st.q.jobs with
    | nil =>
      apply ih
      simp [workerIter, hq]
    | cons j rest =>
      apply ih
      simp only [workerIter, hq]
      rw [hq] at h
      simpa using Nat.le_of_succ_le_succ h

/-- C4: for every dequeued job — whatever the processing outcome — the worker
marks the item done (the unfinished count drops by one), removes exactly that
job, keeps running, and proceeds to the rest of the queue: the queue
evolution is independent of processing success or failure, and
running the loop once per queued job always empties the queue. -/
theorem C4_worker_isolation (outCfg : OutDirCfg)
    (process : FsPath → String → Except String PResult) (move : Bool) :
    (∀ (st : SysW) (j : Job) (rest : List Job), st.q.jobs = j :: rest →
      (workerIter outCfg process move st).q.jobs = rest ∧
      (workerIter outCfg process move st).q.unfinished = st.q.unfinished - 1) ∧
    (∀ (process' : FsPath → String → Except String PResult) (st : SysW),
      (workerIter outCfg process move st).q = (workerIter outCfg process' move st).q) ∧
    (∀ (n : Nat) (st : SysW), workerRun outCfg process move (n + 1) st =
      workerRun outCfg process move n (workerIter outCfg process move st)) ∧
    (∀ st : SysW, (workerRun outCfg process move st.q.jobs.length st).q.jobs = []) := by
  refine ⟨?_, ?_, ?_, ?_⟩
  · intro st j rest hq
    constructor <;> simp [workerIter, hq]
  · intro process' st
    cases hq : st.q.jobs <;> simp [workerIter, hq]
  · intro n st
    rfl
  · intro st
    exact workerRun_drain outCfg process move _ st (Nat.le_refl _)

theorem C4_worker_isolation_witness :
    (workerIter (Sum.inl ["out"]) (fun _ _ => Except.error "boom") true
        ⟨⟨[⟨["in", "a.pdf"], "R", "h", none⟩, ⟨["in", "b.pdf"], "R", "k", none⟩], 2⟩,
          ⟨[], []⟩⟩).q.jobs = [⟨["in", "b.pdf"], "R", "k", none⟩] ∧
    (workerIter (Sum.inl ["out"]) (fun _ _ => Except.error "boom") true
        ⟨⟨[⟨["in", "a.pdf"], "R", "h", none⟩, ⟨["in", "b.pdf"], "R", "k", none⟩], 2⟩,
          ⟨[], []⟩⟩).q.unfinished = 1 ∧
    (workerRun (Sum.inl ["out"]) (fun _ _ => Except.error "boom") true 2
        ⟨⟨[⟨["in", "a.pdf"], "R", "h", none⟩, ⟨["in", "b.pdf"], "R", "k", none⟩], 2⟩,
          ⟨[], []⟩⟩).q.jobs = [] := by
  have h := C4_worker_isolation (Sum.inl ["out"]) (fun _ _ => Except.error "boom") true
  obtain ⟨h1, h2⟩ := h.1 ⟨⟨[⟨["in", "a.pdf"], "R", "h", none⟩,
    ⟨["in", "b.pdf"], "R", "k", none⟩], 2⟩, ⟨[], []⟩⟩
    ⟨["in", "a.pdf"], "R", "h", none⟩ [⟨["in", "b.pdf"], "R", "k", none⟩] rfl
  exact ⟨h1, h2, h.2.2.2 ⟨⟨[⟨["in", "a.pdf"], "R", "h", none⟩,
    ⟨["in", "b.pdf"], "R", "k", none⟩], 2⟩, ⟨[], []⟩⟩⟩

/-! ## Claim theorems: the dedup set is never evicted (C10) -/

theorem sysStep_seen_mono (hash : String → String) (outCfg : OutDirCfg)
    (process : FsPath → String → Except String PResult) (move : Bool)
    (st : Sys) (cmd : SysCmd) :
    st.w.seen ⊆ (sysStep hash outCfg process move st cmd).w.seen := by
  cases cmd with
  | deliver cfg ev => exact seen_subset_watchStep hash cfg st.w ev
  | work =>
    cases hq : st.w.q with
    | nil => simp [sysStep, hq]
    | cons j rest => simp [sysStep, hq]

theorem sysStep_job_origin (hash : String → String) (outCfg : OutDirCfg)
    (process : FsPath → String → Except String PResult) (move : Bool)
    (st : Sys) (cmd : SysCmd) (j : Job)
    (hj : j ∈ (sysStep hash outCfg process move st cmd).w.q) :
    j ∈ st.w.q ∨ j.sha1 ∉ st.w.seen := by
  cases cmd with
  | deliver cfg ev => exact watchStep_job_origin hash cfg st.w ev j hj
  | work =>
    left
    cases hq : st.w.q with
    | nil =>
      have he : sysStep hash outCfg process move st SysCmd.work = st := by
        simp [sysStep, hq]
      rw [he] at hj
      rwa [hq] at hj
    | cons j' rest =>
      have he : (sysStep hash outCfg process move st SysCmd.work).w.q = rest := by
        simp [sysStep, hq]
      rw [he] at hj
      exact List.mem_cons_of_mem _ hj

/-- C10: no operation of the system — event delivery or worker iterations,
including ones whose processing fails — ever removes a fingerprint from the
dedup set; consequently, once a fingerprint is in the set (as it is after its
job was enqueued, even if that job later fails), no subsequent interleaving
of events and worker steps ever enqueues another job carrying it: a
byte-identical re-drop of a failed file is silently ignored in-process. -/
theorem C10_no_eviction (hash : String → String) (outCfg : OutDirCfg)
    (process : FsPath → String → Except String PResult) (move : Bool)
    (st : Sys) (cmds : List SysCmd) (d : String) (hd : d ∈ st.w.seen) :
    (∀ cmd, st.w.seen ⊆ (sysStep hash outCfg process move st cmd).w.seen) ∧
    d ∈ (sysRun hash outCfg process move st cmds).w.seen ∧
    ∀ j, j ∈ (sysRun hash outCfg process move st cmds).w.q → j.sha1 = d →
      j ∈ st.w.q := by
  refine ⟨fun cmd => sysStep_seen_mono hash outCfg process move st cmd, ?_⟩
  induction cmds generalizing st with
  | nil => exact ⟨hd, fun j hj _ => hj⟩
  | cons cmd rest ih =>
    have hd' : d ∈ (sysStep hash outCfg process move st cmd).w.seen :=
      sysStep_seen_mono hash outCfg process move st cmd hd
    obtain ⟨h1, h2⟩ := ih (sysStep hash outCfg process move st cmd) hd'
    refine ⟨h1, fun j hj hsha => ?_⟩
    rcases sysStep_job_origin hash outCfg process move st cmd j (h2 j hj hsha) with h | h
    · exact h
    · rw [hsha] at h
      exact absurd hd h

theorem C10_no_eviction_witness :
    "X" ∈ (sysRun id (Sum.inl ["out"]) (fun _ _ => Except.error "boom") true
        ⟨⟨["X"], [⟨["in", "a.pdf"], "R", "X", none⟩]⟩, ⟨[(["in", "a.pdf"], "C")], []⟩⟩
        [SysCmd.work,
         SysCmd.deliver ⟨["in"], "R", none⟩
           ⟨["in", "b.pdf"], true, [Except.ok 5, Except.ok 5, Except.ok 5],
             Except.ok "X"⟩]).w.seen ∧
    ∀ j, j ∈ (sysRun id (Sum.inl ["out"]) (fun _ _ => Except.error "boom") true
        ⟨⟨["X"], [⟨["in", "a.pdf"], "R", "X", none⟩]⟩, ⟨[(["in", "a.pdf"], "C")], []⟩⟩
        [SysCmd.work,
         SysCmd.deliver ⟨["in"], "R", none⟩
           ⟨["in", "b.pdf"], true, [Except.ok 5, Except.ok 5, Except.ok 5],
             Except.ok "X"⟩]).w.q → j.sha1 = "X" →
      j ∈ [(⟨["in", "a.pdf"], "R", "X", none⟩ : Job)] := by
  have h := C10_no_eviction id (Sum.inl ["out"]) (fun _ _ => Except.error "boom") true
    ⟨⟨["X"], [⟨["in", "a.pdf"], "R", "X", none⟩]⟩, ⟨[(["in", "a.pdf"], "C")], []⟩⟩
    [SysCmd.work,
     SysCmd.deliver ⟨["in"], "R", none⟩
       ⟨["in", "b.pdf"], true, [Except.ok 5, Except.ok 5, Except.ok 5], Except.ok "X"⟩]
    "X" (by decide)
  exact ⟨h.2.1, h.2.2⟩

/-! ## Claim theorems: the watch registry (C5, C8) -/

/-- C5: `start` computes `key = folder + "|" + recipe_ref`; a second `start`
with the identical pair returns the same key, is a no-op (no second observer),
and leaves exactly one active entry under the key (the registry map keys
being unique, as for a dict). -/
theorem C5_start_idempotent (st : Registry) (folder recipe_ref : String)
    (o1 o2 : Option FsPath) (hnd : (activeKeys st).Nodup) :
    (startWatch st folder recipe_ref o1).2.2 = folder ++ "|" ++ recipe_ref ∧
    (startWatch (startWatch st folder recipe_ref o1).1 folder recipe_ref o2).2.2 =
      folder ++ "|" ++ recipe_ref ∧
    (startWatch (startWatch st folder recipe_ref o1).1 folder recipe_ref o2).1 =
      (startWatch st folder recipe_ref o1).1 ∧
    (startWatch (startWatch st folder recipe_ref o1).1 folder recipe_ref o2).2.1 =
      "already_watching" ∧
    (activeKeys (startWatch (startWatch st folder recipe_ref o1).1 folder
        recipe_ref o2).1).count (folder ++ "|" ++ recipe_ref) = 1 := by
  by_cases hk : folder ++ "|" ++ recipe_ref ∈ activeKeys st
  · have h1 : startWatch st folder recipe_ref o1 =
        (st, "already_watching", folder ++ "|" ++ recipe_ref) := by
      unfold startWatch
      rw [if_pos hk]
    rw [h1]
    have h2 : startWatch st folder recipe_ref o2 =
        (st, "already_watching", folder ++ "|" ++ recipe_ref) := by
      unfold startWatch
      rw [if_pos hk]
    rw [h2]
    exact ⟨rfl, rfl, rfl, rfl, List.count_eq_one_of_mem hnd hk⟩
  · have h1 : startWatch st folder recipe_ref o1 =
        ({ observers := (folder ++ "|" ++ recipe_ref, st.nextObs) :: st.observers
           nextObs := st.nextObs + 1
           dirs := folder :: st.dirs }, "watching", folder ++ "|" ++ recipe_ref) := by
      unfold startWatch
      rw [if_neg hk]
    rw [h1]
    have hmem : folder ++ "|" ++ recipe_ref ∈ activeKeys
        { observers := (folder ++ "|" ++ recipe_ref, st.nextObs) :: st.observers
          nextObs := st.nextObs + 1
          dirs := folder :: st.dirs } := by
      simp [activeKeys]
    have h2 : startWatch
        { observers := (folder ++ "|" ++ recipe_ref, st.nextObs) :: st.observers
          nextObs := st.nextObs + 1
          dirs := folder :: st.dirs } folder recipe_ref o2 =
        ({ observers := (folder ++ "|" ++ recipe_ref, st.nextObs) :: st.observers
           nextObs := st.nextObs + 1
           dirs := folder :: st.dirs }, "already_watching",
          folder ++ "|" ++ recipe_ref) := by
      unfold startWatch
      rw [if_pos hmem]
    rw [h2]
    refine ⟨rfl, rfl, rfl, rfl, ?_⟩
    have hcount : (activeKeys st).count (folder ++ "|" ++ recipe_ref) = 0 :=
      List.count_eq_zero_of_not_mem hk
    simp [activeKeys, List.count_cons]
    simpa [activeKeys] using hcount

theorem C8_stop_unknown (st : Registry) (key : String)
    (h : ¬ key ∈ activeKeys st) : stopWatch st key = (st, "not_active") := by
  unfold stopWatch
  rw [if_neg h]

theorem C8_stop_unknown_witness :
    stopWatch ⟨[("a|r", 0)], 1, ["a"]⟩ "b|r" = (⟨[("a|r", 0)], 1, ["a"]⟩, "not_active") :=
  C8_stop_unknown ⟨[("a|r", 0)], 1, ["a"]⟩ "b|r" (by decide)

/-! ## Decimal numerals are injective -/

theorem digitVal_digitChar : ∀ d, d < 10 → digitVal (Nat.digitChar d) = d := by decide

theorem toDigitsCore_append (fuel : Nat) :
    ∀ (n : Nat) (ds : List Char),
      Nat.toDigitsCore 10 fuel n ds = Nat.toDigitsCore 10 fuel n [] ++ ds := by
  induction fuel with
  | zero => intro n ds; rfl
  | succ fuel ih =>
    intro n ds
    simp only [Nat.toDigitsCore]
    by_cases h : n / 10 = 0
    · rw [if_pos h, if_pos h]
      rfl
    · rw [if_neg h, if_neg h, ih (n / 10) (Nat.digitChar (n % 10) :: ds),
        ih (n / 10) [Nat.digitChar (n % 10)]]
      simp

theorem digsValAux_toDigitsCore (fuel : Nat) :
    ∀ n : Nat, n < fuel → digsValAux 0 (Nat.toDigitsCore 10 fuel n []) = n := by
  induction fuel with
  | zero => intro n h; omega
  | succ fuel ih =>
    intro n h
    simp only [Nat.toDigitsCore]
    have hmod : n % 10 < 10 := Nat.mod_lt n (by omega)
    by_cases h0 : n / 10 = 0
    · rw [if_pos h0]
      have hn : n < 10 := by
        have := Nat.div_add_mod n 10
        omega
      simp only [digsValAux, List.foldl_cons, List.foldl_nil, Nat.zero_mul, Nat.zero_add]
      rw [digitVal_digitChar (n % 10) hmod]
      exact Nat.mod_eq_of_lt hn
    · rw [if_neg h0, toDigitsCore_append]
      have hpos : 0 < n := by
        rcases Nat.eq_zero_or_pos n with h2 | h2
        · exfalso
          apply h0
          rw [h2]
        · exact h2
      have hdiv : n / 10 < fuel := by
        have := Nat.div_lt_self hpos (by omega : 1 < 10)
        omega
      have ihv := ih (n / 10) hdiv
      simp only [digsValAux, List.foldl_append] at ihv ⊢
      rw [ihv, List.foldl_cons, List.foldl_nil, digitVal_digitChar (n % 10) hmod]
      have := Nat.div_add_mod n 10
      omega

theorem natRepr_inj : Function.Injective Nat.repr := by
  intro m n h
  have hd : Nat.toDigitsCore 10 (m + 1) m [] = Nat.toDigitsCore 10 (n + 1) n [] := by
    have hdata := congrArg String.data h
    simpa [Nat.repr, Nat.toDigits, List.asString] using hdata
  have hm := digsValAux_toDigitsCore (m + 1) m (Nat.lt_succ_self m)
  have hn := digsValAux_toDigitsCore (n + 1) n (Nat.lt_succ_self n)
  rw [← hm, ← hn, hd]

/-! ## String-shape lemmas for the collision scan -/

theorem string_append_left_cancel {a b c : String} (h : a ++ b = a ++ c) : b = c := by
  apply String.ext
  have hd := congrArg String.data h
  simp only [String.data_append] at hd
  exact List.append_cancel_left hd

theorem concat_right_inj {l : FsPath} {a b : String} (h : l ++ [a] = l ++ [b]) : a = b := by
  have := List.append_cancel_left h
  simpa using this

theorem allowed_suffix_ne_json (sfx : String) (hA : strToLower sfx ∈ ALLOWED_EXTS) :
    sfx ≠ ".json" := by
  intro h
  rw [h] at hA
  exact absurd hA (by decide)

theorem stem_paren_ne_stem_json (stem x sfx : String) :
    stem ++ " (" ++ x ++ ")" ++ sfx ≠ stem ++ ".json" := by
  intro h
  have hd := congrArg String.data h
  simp only [String.data_append, List.append_assoc] at hd
  have hcan := List.append_cancel_left hd
  simp at hcan

theorem candName_inj (stem sfx : String) :
    Function.Injective (fun i : Nat => stem ++ " (" ++ Nat.repr i ++ ")" ++ sfx) := by
  intro i j h
  apply natRepr_inj
  apply String.ext
  have hd := congrArg String.data h
  simp only [String.data_append, List.append_assoc] at hd
  have h1 := List.append_cancel_left hd
  have h2 := List.append_cancel_left h1
  exact List.append_cancel_right h2

/-! ## The collision scan reaches a free name -/

theorem destLoop_exists_all (fs : FS) (pdir : FsPath) (stem sfx : String) :
    ∀ (fuel i : Nat) (dest : FsPath),
      fs.existsP (destLoop fs pdir stem sfx dest i fuel) = true →
      fs.existsP dest = true ∧
      ∀ k, i ≤ k → k < i + fuel →
        fs.existsP (pdir ++ [stem ++ " (" ++ Nat.repr k ++ ")" ++ sfx]) = true := by
  intro fuel
  induction fuel with
  | zero =>
    intro i dest h
    exact ⟨h, fun k h1 h2 => by omega⟩
  | succ fuel ih =>
    intro i dest h
    by_cases hd : fs.existsP dest = true
    · refine ⟨hd, ?_⟩
      have h' : fs.existsP (destLoop fs pdir stem sfx
          (pdir ++ [stem ++ " (" ++ Nat.repr i ++ ")" ++ sfx]) (i + 1) fuel) = true := by
        rw [destLoop, if_pos hd] at h
        exact h
      obtain ⟨hc, hrest⟩ := ih (i + 1) _ h'
      intro k hk1 hk2
      rcases Nat.eq_or_lt_of_le hk1 with rfl | hlt
      · exact hc
      · exact hrest k hlt (by omega)
    · have he : destLoop fs pdir stem sfx dest i (fuel + 1) = dest := by
        rw [destLoop, if_neg hd]
      rw [he] at h
      exact absurd h hd

theorem destScan_free (fs : FS) (pdir : FsPath) (stem sfx name : String) :
    fs.existsP (destScan fs pdir stem sfx name) = false := by
  by_contra hcon
  have h' : fs.existsP (destScan fs pdir stem sfx name) = true := by
    cases hx : fs.existsP (destScan fs pdir stem sfx name)
    · exact absurd hx hcon
    · rfl
  obtain ⟨_, hall⟩ := destLoop_exists_all fs pdir stem sfx
    (fs.files.length + fs.dirs.length + 1) 1 (pdir ++ [name]) h'
  have hmem : ∀ k, 1 ≤ k → k ≤ fs.files.length + fs.dirs.length + 1 →
      (pdir ++ [stem ++ " (" ++ Nat.repr k ++ ")" ++ sfx]) ∈
        (fs.files.map Prod.fst ++ fs.dirs) := by
    intro k h1 h2
    have hex := hall k h1 (by omega)
    unfold FS.existsP at hex
    simp only [Bool.or_eq_true] at hex
    rcases hex with hex | hex
    · obtain ⟨c, hc⟩ := Option.isSome_iff_exists.mp hex
      unfold FS.read at hc
      obtain ⟨e, he, _⟩ := Option.map_eq_some'.mp hc
      have hmemf := List.mem_of_find?_eq_some he
      have hpred := List.find?_some he
      simp only [decide_eq_true_eq] at hpred
      exact List.mem_append.mpr (Or.inl (List.mem_map.mpr ⟨e, hmemf, hpred⟩))
    · exact List.mem_append.mpr (Or.inr (by simpa using hex))
  have hinj : Function.Injective
      (fun k : Nat => pdir ++ [stem ++ " (" ++ Nat.repr (k + 1) ++ ")" ++ sfx]) := by
    intro a b hab
    have hx : stem ++ " (" ++ Nat.repr (a + 1) ++ ")" ++ sfx =
        stem ++ " (" ++ Nat.repr (b + 1) ++ ")" ++ sfx := concat_right_inj hab
    have := candName_inj stem sfx hx
    omega
  have hsub : (Finset.range (fs.files.length + fs.dirs.length + 1)).image
      (fun k : Nat => pdir ++ [stem ++ " (" ++ Nat.repr (k + 1) ++ ")" ++ sfx]) ⊆
      (fs.files.map Prod.fst ++ fs.dirs).toFinset := by
    intro x hx
    rw [Finset.mem_image] at hx
    obtain ⟨k, hk, rfl⟩ := hx
    rw [Finset.mem_range] at hk
    rw [List.mem_toFinset]
    exact hmem (k + 1) (by omega) (by omega)
  have hc1 : ((Finset.range (fs.files.length + fs.dirs.length + 1)).image
      (fun k : Nat => pdir ++ [stem ++ " (" ++ Nat.repr (k + 1) ++ ")" ++ sfx])).card =
      fs.files.length + fs.dirs.length + 1 := by
    rw [Finset.card_image_of_injective _ hinj, Finset.card_range]
  have hc2 := Finset.card_le_card hsub
  have hc3 : (fs.files.map Prod.fst ++ fs.dirs).toFinset.card ≤
      fs.files.length + fs.dirs.length := by
    calc (fs.files.map Prod.fst ++ fs.dirs).toFinset.card
        ≤ (fs.files.map Prod.fst ++ fs.dirs).length := List.toFinset_card_le _
      _ = fs.files.length + fs.dirs.length := by simp
  omega

theorem destLoop_shape (fs : FS) (pdir : FsPath) (stem sfx : String) :
    ∀ (fuel i : Nat) (x : String), 1 ≤ i →
      ∃ y, destLoop fs pdir stem sfx (pdir ++ [x]) i fuel = pdir ++ [y] ∧
        (y = x ∨ ∃ k, 1 ≤ k ∧ y = stem ++ " (" ++ Nat.repr k ++ ")" ++ sfx) := by
  intro fuel
  induction fuel with
  | zero =>
    intro i x _
    exact ⟨x, rfl, Or.inl rfl⟩
  | succ fuel ih =>
    intro i x hi
    by_cases hd : fs.existsP (pdir ++ [x]) = true
    · obtain ⟨y, h1, h2⟩ := ih (i + 1) (stem ++ " (" ++ Nat.repr i ++ ")" ++ sfx) (by omega)
      refine ⟨y, ?_, ?_⟩
      · rw [destLoop, if_pos hd]
        exact h1
      · rcases h2 with h2 | h2
        · exact Or.inr ⟨i, hi, h2⟩
        · exact Or.inr h2
    · rw [destLoop, if_neg hd]
      exact ⟨x, rfl, Or.inl rfl⟩

/-! ## Claim theorems: successful processing and relocation (C3) -/

/-- C3: a job processed successfully with relocation enabled leaves its
serialized result at `<effective out_dir>/<stem>.json`, removes the source
from its original path, and moves it into the `Processed` sibling directory —
either under its own name or, on collisions, under `stem (k).ext` for some
`k ≥ 1`, at a name that was free at move time.  At the concrete inputs of the
last two conjuncts, with `Processed/report.pdf` already present a new
`report.pdf` lands as `Processed/report (1).pdf`, and with both present a
third lands as `Processed/report (2).pdf`. -/
theorem C3_success_relocation (fs : FS) (j : Job) (outCfg : OutDirCfg)
    (process : FsPath → String → Except String PResult) (res : PResult) (content : String)
    (hA : strToLower (pathSuffix (pathNameOf j.path)) ∈ ALLOWED_EXTS)
    (hp : process j.path j.recipe_ref = Except.ok res)
    (hs : fs.read j.path = some content) :
    ((handleJob fs j outCfg process true).read
        (effOut j.out_dir outCfg ++ [pathStem (pathNameOf j.path) ++ ".json"]) =
      some (payloadOf res) ∧
    (handleJob fs j outCfg process true).read j.path = none ∧
    ∃ y, (handleJob fs j outCfg process true).read
          ((j.path.dropLast ++ ["Processed"]) ++ [y]) = some content ∧
        (y = pathNameOf j.path ∨ ∃ k, 1 ≤ k ∧
          y = pathStem (pathNameOf j.path) ++ " (" ++ Nat.repr k ++ ")" ++
            pathSuffix (pathNameOf j.path)) ∧
        FS.existsP (((fs.mkdirP (effOut j.out_dir outCfg)).writeText
            (effOut j.out_dir outCfg ++ [pathStem (pathNameOf j.path) ++ ".json"])
            (payloadOf res)).mkdirP (j.path.dropLast ++ ["Processed"]))
          ((j.path.dropLast ++ ["Processed"]) ++ [y]) = false) ∧
    (handleJob ⟨[(["in", "report.pdf"], "X"), (["in", "Processed", "report.pdf"], "O")],
        [["in", "Processed"]]⟩ ⟨["in", "report.pdf"], "R", "h", none⟩ (Sum.inl ["out"])
        (fun _ _ => Except.ok (PResult.pstr "r")) true).read
        ["in", "Processed", "report (1).pdf"] = some "X" ∧
    (handleJob ⟨[(["in", "report.pdf"], "Y"), (["in", "Processed", "report.pdf"], "O"),
        (["in", "Processed", "report (1).pdf"], "P")], [["in", "Processed"]]⟩
        ⟨["in", "report.pdf"], "R", "h", none⟩ (Sum.inl ["out"])
        (fun _ _ => Except.ok (PResult.pstr "r")) true).read
        ["in", "Processed", "report (2).pdf"] = some "Y" := by
  refine ⟨?_, by decide, by decide⟩
  have hnp : j.path ≠ [] := by
    intro h
    rw [h] at hA
    exact absurd hA (by decide)
  have hsfx : pathSuffix (pathNameOf j.path) ≠ ".json" := allowed_suffix_ne_json _ hA
  have hname : pathStem (pathNameOf j.path) ++ pathSuffix (pathNameOf j.path) =
      pathNameOf j.path := pathStem_append_pathSuffix _
  have hjne : j.path ≠
      effOut j.out_dir outCfg ++ [pathStem (pathNameOf j.path) ++ ".json"] := by
    intro h
    have h2 := congrArg pathNameOf h
    rw [pathNameOf_concat] at h2
    have h3 : pathStem (pathNameOf j.path) ++ ".json" =
        pathStem (pathNameOf j.path) ++ pathSuffix (pathNameOf j.path) := by
      rw [hname]
      exact h2.symm
    exact hsfx (string_append_left_cancel h3).symm
  have hr2 : (((fs.mkdirP (effOut j.out_dir outCfg)).writeText
      (effOut j.out_dir outCfg ++ [pathStem (pathNameOf j.path) ++ ".json"])
      (payloadOf res)).mkdirP (j.path.dropLast ++ ["Processed"])).read j.path =
      some content := by
    rw [FS.read_mkdirP, FS.read_writeText_ne _ _ _ _ hjne, FS.read_mkdirP]
    exact hs
  obtain ⟨y, hy, hycase⟩ := destLoop_shape
    (((fs.mkdirP (effOut j.out_dir outCfg)).writeText
      (effOut j.out_dir outCfg ++ [pathStem (pathNameOf j.path) ++ ".json"])
      (payloadOf res)).mkdirP (j.path.dropLast ++ ["Processed"]))
    (j.path.dropLast ++ ["Processed"]) (pathStem (pathNameOf j.path))
    (pathSuffix (pathNameOf j.path))
    ((((fs.mkdirP (effOut j.out_dir outCfg)).writeText
      (effOut j.out_dir outCfg ++ [pathStem (pathNameOf j.path) ++ ".json"])
      (payloadOf res)).mkdirP (j.path.dropLast ++ ["Processed"])).files.length +
      (((fs.mkdirP (effOut j.out_dir outCfg)).writeText
      (effOut j.out_dir outCfg ++ [pathStem (pathNameOf j.path) ++ ".json"])
      (payloadOf res)).mkdirP (j.path.dropLast ++ ["Processed"])).dirs.length + 1)
    1 (pathNameOf j.path) (Nat.le_refl 1)
  have hdest : destScan
      (((fs.mkdirP (effOut j.out_dir outCfg)).writeText
        (effOut j.out_dir outCfg ++ [pathStem (pathNameOf j.path) ++ ".json"])
        (payloadOf res)).mkdirP (j.path.dropLast ++ ["Processed"]))
      (j.path.dropLast ++ ["Processed"]) (pathStem (pathNameOf j.path))
      (pathSuffix (pathNameOf j.path)) (pathNameOf j.path) =
      (j.path.dropLast ++ ["Processed"]) ++ [y] := by
    unfold destScan
    exact hy
  have hyne : y ≠ pathStem (pathNameOf j.path) ++ ".json" := by
    rcases hycase with rfl | ⟨k, _, rfl⟩
    · intro h
      have h3 : pathStem (pathNameOf j.path) ++ ".json" =
          pathStem (pathNameOf j.path) ++ pathSuffix (pathNameOf j.path) := by
        rw [hname]
        exact h.symm
      exact hsfx (string_append_left_cancel h3).symm
    · exact stem_paren_ne_stem_json _ _ _
  have hjsonne : effOut j.out_dir outCfg ++ [pathStem (pathNameOf j.path) ++ ".json"] ≠
      (j.path.dropLast ++ ["Processed"]) ++ [y] :=
    (concat_ne_of_last_ne hyne).symm
  have hlen : 0 < j.path.length := List.length_pos.mpr hnp
  have hsrcne : j.path ≠ (j.path.dropLast ++ ["Processed"]) ++ [y] := by
    intro h
    have h2 := congrArg List.length h
    simp only [List.length_append, List.length_dropLast, List.length_cons,
      List.length_nil] at h2
    omega
  have hrep : FS.replace
      (((fs.mkdirP (effOut j.out_dir outCfg)).writeText
        (effOut j.out_dir outCfg ++ [pathStem (pathNameOf j.path) ++ ".json"])
        (payloadOf res)).mkdirP (j.path.dropLast ++ ["Processed"])) j.path
      ((j.path.dropLast ++ ["Processed"]) ++ [y]) =
      Except.ok (((((fs.mkdirP (effOut j.out_dir outCfg)).writeText
        (effOut j.out_dir outCfg ++ [pathStem (pathNameOf j.path) ++ ".json"])
        (payloadOf res)).mkdirP (j.path.dropLast ++ ["Processed"])).removeFile
          j.path).writeText ((j.path.dropLast ++ ["Processed"]) ++ [y]) content) := by
    unfold FS.replace
    rw [hr2]
  have hh : handleJob fs j outCfg process true =
      (((((fs.mkdirP (effOut j.out_dir outCfg)).writeText
        (effOut j.out_dir outCfg ++ [pathStem (pathNameOf j.path) ++ ".json"])
        (payloadOf res)).mkdirP (j.path.dropLast ++ ["Processed"])).removeFile
          j.path).writeText ((j.path.dropLast ++ ["Processed"]) ++ [y]) content) := by
    simp only [handleJob, workerTry, hp, if_true]
    rw [hdest, hrep]
  rw [hh]
  refine ⟨?_, ?_, ?_⟩
  · rw [FS.read_writeText_ne _ _ _ _ hjsonne,
      FS.read_removeFile_ne _ _ _ (Ne.symm hjne), FS.read_mkdirP,
      FS.read_writeText_self]
  · rw [FS.read_writeText_ne _ _ _ _ hsrcne, FS.read_removeFile_self]
  · refine ⟨y, ?_, hycase, ?_⟩
    · rw [FS.read_writeText_self]
    · rw [← hdest]
      exact destScan_free _ _ _ _ _


theorem C3_success_relocation_witness :
    (handleJob ⟨[(["in", "report.pdf"], "C")], []⟩ ⟨["in", "report.pdf"], "R", "h", none⟩
        (Sum.inl ["out"]) (fun _ _ => Except.ok (PResult.pstr "res")) true).read
        ["out", "report.json"] = some "res" ∧
    (handleJob ⟨[(["in", "report.pdf"], "C")], []⟩ ⟨["in", "report.pdf"], "R", "h", none⟩
        (Sum.inl ["out"]) (fun _ _ => Except.ok (PResult.pstr "res")) true).read
        ["in", "report.pdf"] = none := by
  have h := C3_success_relocation ⟨[(["in", "report.pdf"], "C")], []⟩
    ⟨["in", "report.pdf"], "R", "h", none⟩ (Sum.inl ["out"])
    (fun _ _ => Except.ok (PResult.pstr "res")) (PResult.pstr "res") "C"
    (by decide) rfl (by decide)
  exact ⟨h.1.1, h.1.2.1⟩


theorem C5_start_idempotent_witness :
    (startWatch ⟨[], 0, []⟩ "in" "R" none).2.2 = "in" ++ "|" ++ "R" ∧
    (startWatch (startWatch ⟨[], 0, []⟩ "in" "R" none).1 "in" "R" none).1 =
      (startWatch ⟨[], 0, []⟩ "in" "R" none).1 ∧
    (activeKeys (startWatch (startWatch ⟨[], 0, []⟩ "in" "R" none).1 "in" "R" none).1).count
      ("in" ++ "|" ++ "R") = 1 := by
  have h := C5_start_idempotent ⟨[], 0, []⟩ "in" "R" none none (by decide)
  exact ⟨h.1, h.2.2.1, h.2.2.2.2⟩

end Docufy
